import Mathlib

/-!
Verification development for the Elemental repository core:
the direct-form QP infeasible-path-following solver (qp::direct::IPF),
the distributed nodal multi-vector remap (DistNodalMultiVec::Pull/Push),
and the blocked multi-shift triangular solver (triang_eig::MultiShiftSolve).

The embedding works over an abstract linearly ordered field `α` (the code is
templated over a real type `Real`); external collaborators (BLAS Nrm2/Trsv,
the KKT direction solve, the line search, MPI communication) are modelled as
function parameters, exactly as the spec lists them under external interfaces.
-/

set_option maxHeartbeats 1000000
set_option linter.unusedVariables false
set_option linter.unusedSectionVars false

section IPFEmbed

variable {α : Type} [LinearOrderedField α]

/-- Dot product of the leading `n` entries of two column vectors
(models `Dot(u,v)` on length-`n` vectors). -/
def dotv (n : ℕ) (u v : ℕ → α) : α := ∑ i ∈ Finset.range n, u i * v i

/-- Matrix-vector product `(A x) i` where `A` has `n` columns
(models `Gemv(NORMAL, 1, A, x, ...)` / sparse `Multiply(NORMAL, ...)`). -/
def matVec (n : ℕ) (A : ℕ → ℕ → α) (x : ℕ → α) : ℕ → α :=
  fun i => ∑ j ∈ Finset.range n, A i j * x j

/-- Transposed matrix-vector product `(Aᵀ y) j` where `A` has `m` rows
(models `Gemv(TRANSPOSE, 1, A, y, ...)`). -/
def matTVec (m : ℕ) (A : ℕ → ℕ → α) (y : ℕ → α) : ℕ → α :=
  fun j => ∑ i ∈ Finset.range m, A i j * y i

/-- Modelled from the spec: `NumNonPositive(v)` (the routine itself is not under
src/; the spec calls any nonpositive entry of `x` or `z` a fatal invariant
violation, and the IPF source reports the per-vector counts).  Counts the
entries `v i ≤ 0` among the leading `n`. -/
def numNonPositive (n : ℕ) (v : ℕ → α) : ℕ :=
  ((List.range n).filter (fun i => v i ≤ 0)).length

/-- The problem data of a direct-form QP: `min (1/2) xᵀQx + cᵀx` s.t. `Ax = b`,
`x ≥ 0`, with `A` of size `m × n` and `Q` of size `n × n` (explicitly
symmetric, as the sparse IPF requires). -/
structure QPDataL (α : Type) where
  m : ℕ
  n : ℕ
  Q : ℕ → ℕ → α
  A : ℕ → ℕ → α
  b : ℕ → α
  c : ℕ → α

/-- The primal-dual iterate `(x, y, z)` of the interior-point iteration. -/
structure IterStateL (α : Type) where
  x : ℕ → α
  y : ℕ → α
  z : ℕ → α

/-- `xᵀ Q x` as the IPF loop computes it (`d := Q x; xTQx := Dot(x,d)`). -/
def xTQxOf (dat : QPDataL α) (st : IterStateL α) : α :=
  dotv dat.n st.x (matVec dat.n dat.Q st.x)

/-- The primal objective `xᵀQx/2 + cᵀx` of the current iterate. -/
def primObjOf (dat : QPDataL α) (st : IterStateL α) : α :=
  xTQxOf dat st / 2 + dotv dat.n dat.c st.x

/-- The dual objective `-xᵀQx/2 - bᵀy` of the current iterate. -/
def dualObjOf (dat : QPDataL α) (st : IterStateL α) : α :=
  -(xTQxOf dat st) / 2 - dotv dat.m dat.b st.y

/-- Relative objective gap `|primObj - dualObj| / (1 + |primObj|)`. -/
def objConvOf (dat : QPDataL α) (st : IterStateL α) : α :=
  |primObjOf dat st - dualObjOf dat st| / (1 + |primObjOf dat st|)

/-- Primal residual vector `r_b = A x - b`
(source: `rb = b; Scale(-1, rb); Gemv(NORMAL, 1, A, x, 1, rb)`). -/
def rbVecOf (dat : QPDataL α) (st : IterStateL α) : ℕ → α :=
  fun i => -(dat.b i) + matVec dat.n dat.A st.x i

/-- Dual residual vector as the source computes it:
`rc = c; rc += Q x; rc += Aᵀ y; rc -= z`, i.e. `r_c = Q x + Aᵀ y - z + c`. -/
def rcVecOf (dat : QPDataL α) (st : IterStateL α) : ℕ → α :=
  fun j => dat.c j + matVec dat.n dat.Q st.x j + matTVec dat.m dat.A st.y j - st.z j

/-- Modelled from the spec: the dual residual vector with the sign structure
the spec asserts, `Q x + Aᵀ y - z - c` (note the `- c`); kept for comparison
with `rcVecOf`, which the source computes with `+ c`. -/
def specRcVecOf (dat : QPDataL α) (st : IterStateL α) : ℕ → α :=
  fun j => matVec dat.n dat.Q st.x j + matTVec dat.m dat.A st.y j - st.z j - dat.c j

/-- Relative primal residual `‖r_b‖₂ / (1 + ‖b‖₂)`; the 2-norm is the external
BLAS `Nrm2`, passed in as `nrm2` (first argument: vector length). -/
def rbConvOf (nrm2 : ℕ → (ℕ → α) → α) (dat : QPDataL α) (st : IterStateL α) : α :=
  nrm2 dat.m (rbVecOf dat st) / (1 + nrm2 dat.m dat.b)

/-- Relative dual residual `‖r_c‖₂ / (1 + ‖c‖₂)` with `r_c` as the source
computes it (`+ c` term). -/
def rcConvOf (nrm2 : ℕ → (ℕ → α) → α) (dat : QPDataL α) (st : IterStateL α) : α :=
  nrm2 dat.n (rcVecOf dat st) / (1 + nrm2 dat.n dat.c)

/-- Modelled from the spec: the relative dual residual with the spec's `- c`
residual. -/
def specRcConvOf (nrm2 : ℕ → (ℕ → α) → α) (dat : QPDataL α) (st : IterStateL α) : α :=
  nrm2 dat.n (specRcVecOf dat st) / (1 + nrm2 dat.n dat.c)

/-- Outcome of the checks at the top of one IPF iteration
(source lines 99-150 of IPF.cpp, identical in all four variants). -/
inductive StepCheckL where
  | coneError (nx nz : ℕ)
  | converged
  | maxItsError (its : ℕ)
  | proceed
deriving DecidableEq

/-- The check sequence at the top of each IPF iteration: first the cone
precondition (`NumNonPositive` on `x` and `z`, LogicError with both counts),
then the three-part convergence test (break), then the iteration budget
(`numIts == ctrl.maxIts` raises a RuntimeError carrying `ctrl.maxIts`). -/
def checkPhase (nrm2 : ℕ → (ℕ → α) → α) (dat : QPDataL α) (tol : α)
    (maxIts numIts : ℕ) (st : IterStateL α) : StepCheckL :=
  let nx := numNonPositive dat.n st.x
  let nz := numNonPositive dat.n st.z
  if 0 < nx ∨ 0 < nz then .coneError nx nz
  else if objConvOf dat st ≤ tol ∧ rbConvOf nrm2 dat st ≤ tol ∧
      rcConvOf nrm2 dat st ≤ tol then .converged
  else if numIts = maxIts then .maxItsError maxIts
  else .proceed

/-- Modelled from the spec: `MaxStepInPositiveCone(v, dv, ub)` (the routine
lives outside src/).  The spec describes it as the ratio test over
negative-direction entries, capped by the upper bound `ub` (the IPF source
passes `ub = 1`): the fold takes the minimum of `ub` and `-v i / dv i` over
all `i < n` with `dv i < 0`. -/
def maxStepPC (n : ℕ) (v dv : ℕ → α) (ub : α) : α :=
  (List.range n).foldl (fun acc i => if dv i < 0 then min acc (-(v i) / dv i) else acc) ub

/-- The maximal-step bound handed to the line search:
`0.99 * min(alphaPrimal, alphaDual)` with the two ratio tests on `(x,dx)` and
`(z,dz)` (source lines 219-228). -/
def lsBound (n : ℕ) (st : IterStateL α) (dx dz : ℕ → α) : α :=
  (99 / 100 : α) * min (maxStepPC n st.x dx 1) (maxStepPC n st.z dz 1)

/-- Applying the accepted step: `x += α dx; y += α dy; z += α dz`
(the three `Axpy` calls at the bottom of the loop). -/
def ipfStepUpd (a : α) (st : IterStateL α) (dx dy dz : ℕ → α) : IterStateL α :=
  ⟨fun i => st.x i + a * dx i, fun i => st.y i + a * dy i, fun i => st.z i + a * dz i⟩

/-- One accepted IPF step: the line search oracle `ls` (external collaborator
`IPFLineSearch`) receives the bound `0.99 * min(alphaPrimal, alphaDual)` and
returns the step length actually applied. -/
def ipfStep (n : ℕ) (ls : α → α) (st : IterStateL α) (dx dy dz : ℕ → α) : IterStateL α :=
  ipfStepUpd (ls (lsBound n st dx dz)) st dx dy dz

/-- Result of a whole IPF call: either the converged iterate, or one of the
two fatal errors.  No partial iterate accompanies an error, matching the
source, which throws before touching the output arguments further. -/
inductive IPFResultL (α : Type) where
  | success (st : IterStateL α)
  | coneError (nx nz : ℕ)
  | maxItsError (its : ℕ)

/-- The IPF main loop with explicit fuel.  `dir` is the external KKT direction
oracle (the `KKT`/`SymmetricSolve`/`ExpandSolution` stack), `ls` the external
line search, both indexed by the iteration counter.  The loop always
terminates within `maxIts + 1` iterations because the budget check fires at
`numIts = maxIts`; the fuel-0 branch is unreachable from `ipfRun`. -/
def ipfAux (nrm2 : ℕ → (ℕ → α) → α) (dat : QPDataL α) (tol : α)
    (dir : ℕ → IterStateL α → (ℕ → α) × (ℕ → α) × (ℕ → α)) (ls : ℕ → α → α)
    (maxIts : ℕ) : ℕ → ℕ → IterStateL α → IPFResultL α
  | 0, _, _ => .maxItsError maxIts
  | fuel+1, numIts, st =>
    match checkPhase nrm2 dat tol maxIts numIts st with
    | .coneError a b => .coneError a b
    | .converged => .success st
    | .maxItsError i => .maxItsError i
    | .proceed =>
      let d3 := dir numIts st
      ipfAux nrm2 dat tol dir ls maxIts fuel (numIts + 1)
        (ipfStep dat.n (ls numIts) st d3.1 d3.2.1 d3.2.2)

/-- A full IPF call on an initial iterate (`for( Int numIts=0; ; ++numIts )`). -/
def ipfRun (nrm2 : ℕ → (ℕ → α) → α) (dat : QPDataL α) (tol : α)
    (dir : ℕ → IterStateL α → (ℕ → α) × (ℕ → α) × (ℕ → α)) (ls : ℕ → α → α)
    (maxIts : ℕ) (st : IterStateL α) : IPFResultL α :=
  ipfAux nrm2 dat tol dir ls maxIts (maxIts + 1) 0 st

/-- The deterministic iterate trajectory produced by the oracles. -/
def ipfTraj (n : ℕ) (dir : ℕ → IterStateL α → (ℕ → α) × (ℕ → α) × (ℕ → α))
    (ls : ℕ → α → α) (st0 : IterStateL α) : ℕ → IterStateL α
  | 0 => st0
  | k+1 =>
    let st := ipfTraj n dir ls st0 k
    let d3 := dir k st
    ipfStep n (ls k) st d3.1 d3.2.1 d3.2.2

/-- The a-priori regularization candidate for the `FULL_KKT` system of size
`m + 2n`: `+P` on the primal block `i < n`, `-L` on the Lagrange block
`n ≤ i < n + m`, `-D` on the dual block (source lines 552-567, with
`P = Pow(eps, 0.75)` and `L = D = Pow(eps, 0.5)` computed by the external
`Pow` from the machine epsilon). -/
def regCandInitFull (m n : ℕ) (P L D : α) : ℕ → α :=
  fun i => if i < n then P else if i < n + m then -L else -D

/-- The a-priori regularization candidate for the `AUGMENTED_KKT` system of
size `n + m`: `+P` on the primal block, `-L` on the Lagrange block
(source lines 568-580). -/
def regCandInitAug (m n : ℕ) (P L : α) : ℕ → α :=
  fun i => if i < n then P else -L

/-- One iteration's regularization escalation (source lines 681-687 and
717-723): if the external `reg_qsd_ldl::SolveAfter` reported more than 3
large refinement corrections and no escalation has happened yet, scale
`regCand` by 10 and set the `increasedReg` flag. -/
def regEscalate (nlr : ℕ) (rc : ℕ → α) (inc : Bool) : (ℕ → α) × Bool :=
  if 3 < nlr ∧ inc = false then (fun i => 10 * rc i, true) else (rc, inc)

/-- The evolution of `(regCand, increasedReg)` across a whole solve call,
given the per-iteration counts of large refinement corrections. -/
def regTrace (nlrs : List ℕ) (rc0 : ℕ → α) : (ℕ → α) × Bool :=
  nlrs.foldl (fun p nlr => regEscalate nlr p.1 p.2) (rc0, false)

end IPFEmbed

section NodalRemap

variable {α : Type} [LinearOrderedField α]

/-- A (serial) dense node matrix of a nodal multi-vector: height, width and
entries (models `Matrix<T>` as stored in `localNodes`). -/
structure MatL (α : Type) where
  h : ℕ
  w : ℕ
  entry : ℕ → ℕ → α

/-- A distributed node of a nodal multi-vector (models
`DistMatrix<T,VC,STAR>` as stored in `distNodes`): global height/width plus
the `[VC,STAR]` grid size and this process's grid rank. -/
structure DistMatL (α : Type) where
  h : ℕ
  w : ℕ
  gridSize : ℕ
  gridRank : ℕ
  entry : ℕ → ℕ → α

/-- The local shard height of a `[VC,STAR]` node: the rows `t < h` with
`t ≡ gridRank (mod gridSize)` (alignment 0). -/
def distLocalHeight (d : DistMatL α) : ℕ :=
  ((List.range d.h).filter (fun t => t % d.gridSize = d.gridRank)).length

/-- The `DistNodalMultiVec<T>` container: cached global height/width plus the
local and distributed node storage. -/
structure DistNodalMultiVecL (α : Type) where
  height : ℕ
  width : ℕ
  localNodes : List (MatL α)
  distNodes : List (DistMatL α)

/-- The default-constructed container (`height_(0), width_(0)`, no nodes). -/
def emptyDNMV : DistNodalMultiVecL α := ⟨0, 0, [], []⟩

/-- `DistNodalMultiVec::Height()`. -/
def dnmvHeight (v : DistNodalMultiVecL α) : ℕ := v.height

/-- `DistNodalMultiVec::Width()`. -/
def dnmvWidth (v : DistNodalMultiVecL α) : ℕ := v.width

/-- `DistNodalMultiVec::LocalHeight()`: the sum of the local nodes' heights
and the distributed nodes' local shard heights. -/
def dnmvLocalHeight (v : DistNodalMultiVecL α) : ℕ :=
  (v.localNodes.map MatL.h).sum + (v.distNodes.map distLocalHeight).sum

/-- `DistNodalMultiVec::UpdateHeight()`: recompute `height_` as the sum of all
node (global) heights. -/
def dnmvUpdateHeight (v : DistNodalMultiVecL α) : DistNodalMultiVecL α :=
  { v with height := (v.localNodes.map MatL.h).sum + (v.distNodes.map DistMatL.h).sum }

/-- `DistNodalMultiVec::UpdateWidth()`: `width_ = localNodes[0].Width()`.
The source indexes `localNodes[0]` unconditionally; on a container with no
local nodes this is an out-of-bounds access, modelled here as `none`. -/
def dnmvUpdateWidth (v : DistNodalMultiVecL α) : Option (DistNodalMultiVecL α) :=
  match v.localNodes with
  | [] => none
  | a :: _ => some { v with width := a.w }

/-- The index range contributed by the local nodes of one process during
`Pull`/`Push`: for each local node `(off, size)`, the indices
`off, off+1, ..., off+size-1` in traversal order (source lines 83-88). -/
def localInds (locals : List (ℕ × ℕ)) : List ℕ :=
  locals.flatMap (fun p => (List.range p.2).map (fun t => p.1 + t))

/-- The index shard contributed by one distributed node `(off, size,
gridSize, gridRank)`: the loop `for( t=shift; t<size; t+=gridSize )` with
`shift = Shift(gridRank, 0, gridSize) = gridRank`, i.e. the increasing
enumeration of `{ t < size | t ≡ gridRank (mod gridSize) }`, each offset by
`off` (source lines 89-99; `Push` builds the same list from
`ColShift()`/`ColStride()` of the `[VC,STAR]` node, which equal `gridRank`
and `gridSize` at alignment 0). -/
def distShardInds (off size gsize grank : ℕ) : List ℕ :=
  ((List.range size).filter (fun t => t % gsize = grank)).map (fun t => off + t)

/-- The part of the elimination-tree info (`DistSymmInfo`) one process
traverses: its local nodes as `(off, size)` pairs, and for each distributed
node its `(off, size, gridSize, gridRank)`.  Both `Pull` and `Push` loop the
distributed nodes from `s = 1` (the node `distNodes[0]` duplicates the local
subtree root and is skipped, with `distNodes` storage shifted by one), so
`dists` holds exactly the traversed nodes `s ≥ 1`. -/
structure RankTreeInfo where
  locals : List (ℕ × ℕ)
  dists : List (ℕ × ℕ × ℕ × ℕ)

/-- The full mapped-index list one process builds (local nodes first, then
its shard of each distributed node). -/
def rankInds (r : RankTreeInfo) : List ℕ :=
  localInds r.locals ++ r.dists.flatMap (fun q => distShardInds q.1 q.2.1 q.2.2.1 q.2.2.2)

/-- `inverseMap.Translate( mappedInds )`: the external `DistMap` applied
pointwise. -/
def translateInds (invMap : ℕ → ℕ) (l : List ℕ) : List ℕ := l.map invMap

/-- The values one process's `Pull` unpacks, position by position: the request
indices are bucketed by owning rank (`recvInds[ offs[X.RowOwner(i)]++ ] = i`,
a stable bucket placement, i.e. per-owner sublists are the in-order filters
of `l`); each owner replies with `X.GetLocal` of the requested rows, so the
reply bucket of owner `q` is `map v` of `l.filter (owner · = q)`; the unpack
loop then consumes bucket `owner (l s)` at its running offset, which at
position `s` has advanced by the number of earlier requests to the same
owner (source lines 108-194). -/
def pullRank (owner : ℕ → ℕ) (v : ℕ → α) (l : List ℕ) : List α :=
  (List.range l.length).map (fun s =>
    ((l.filter (fun j => owner j = owner (l.getD s 0))).map v).getD
      (((l.take s).filter (fun j => owner j = owner (l.getD s 0))).length) 0)

/-- Sequential application of the scatter writes `X.SetLocal(i - first, val)`
performed while unpacking `Push`'s exchange. -/
def scatterPairs (pairs : List (ℕ × α)) (X0 : ℕ → α) : ℕ → α :=
  pairs.foldl (fun f p => fun i => if i = p.1 then p.2 else f i) X0

/-- The global effect of `Push`: every process packs its `(index, value)`
stream bucketed by owning rank (`sendInds[offs[q]++] = i` with the values
packed at the same running offsets), the all-to-all delivers each owner its
buckets, and each owner overwrites its local rows of the output vector
(source lines 215-313).  `streams` holds each process's translated index
list together with its nodal values in traversal order; the writes of
distinct owners touch disjoint rows, serialized here owner-major. -/
def pushGlobal (P : ℕ) (owner : ℕ → ℕ) (streams : List (List ℕ × List α))
    (X0 : ℕ → α) : ℕ → α :=
  scatterPairs
    ((List.range P).flatMap (fun q =>
      streams.flatMap (fun rv => (rv.1.zip rv.2).filter (fun pr => owner pr.1 = q)))) X0

/-- The concatenation over all processes of the translated mapped-index
lists: the set of original-ordering rows the nodal container covers. -/
def globalInds (invMap : ℕ → ℕ) (ranks : List RankTreeInfo) : List ℕ :=
  ranks.flatMap (fun r => translateInds invMap (rankInds r))

/-- `Pull` followed by `Push` at the whole-job level: each process pulls its
translated index list from the flat vector `v`, and the results are pushed
back into a flat vector that starts from arbitrary contents `X0`. -/
def pullThenPush (P : ℕ) (owner : ℕ → ℕ) (invMap : ℕ → ℕ)
    (ranks : List RankTreeInfo) (v X0 : ℕ → α) : ℕ → α :=
  pushGlobal P owner
    (ranks.map (fun r =>
      let l := translateInds invMap (rankInds r)
      (l, pullRank owner v l))) X0

end NodalRemap

section TriangEigSolve

variable {α : Type} [LinearOrderedField α]

/-- The saved diagonal of a square matrix (models `GetDiagonal(U)`). -/
def diagOf (U : ℕ → ℕ → α) : ℕ → α := fun i => U i i

/-- `SetDiagonal(U, d)` on the leading `n × n` block. -/
def setDiagF (n : ℕ) (U : ℕ → ℕ → α) (d : ℕ → α) : ℕ → ℕ → α :=
  fun i j => if i = j ∧ i < n then d i else U i j

/-- `ShiftDiagonal(U, s)`: add `s` to every diagonal entry of the leading
`n × n` block. -/
def shiftDiagF (n : ℕ) (U : ℕ → ℕ → α) (s : α) : ℕ → ℕ → α :=
  fun i j => if i = j ∧ i < n then U i j + s else U i j

/-- The infinity norm of the strictly upper part of column `j` of `U`:
`cNorm[j] = max_{i<j} |U i j|` (with `cNorm[0] = 0`), source lines 76-86. -/
def cNormF (U : ℕ → ℕ → α) (j : ℕ) : α :=
  (List.range j).foldl (fun acc i => max acc |U i j|) 0

/-- The max-norm of the leading `h` entries of a column vector
(models `MaxNorm(xj)` on a height-`h` view). -/
def colMax (h : ℕ) (w : ℕ → α) : α :=
  (List.range h).foldl (fun acc i => max acc |w i|) 0

/-- `xj *= s` on a height-`h` column view. -/
def scaleHead (h : ℕ) (s : α) (w : ℕ → α) : ℕ → α :=
  fun r => if r < h then s * w r else w r

/-- `blas::Axpy( i, -coef, &U[i*LDim], 1, xj, 1 )`:
`xj(0:i) -= coef * U(0:i, i)`. -/
def axpyCol (i : ℕ) (coef : α) (Uw : ℕ → ℕ → α) (w : ℕ → α) : ℕ → α :=
  fun r => if r < i then w r - coef * Uw r i else w r

/-- The Anderson growth-estimate recursion (source lines 119-134): the state
is `(invGi, invMi, broken)`; the early `break` sets `invGi = 0` and the
`broken` flag, after which remaining iterations are skipped. -/
def growthLoop (sN : α) (Uw : ℕ → ℕ → α) (cN : ℕ → α) (l : List ℕ)
    (st : α × α × Bool) : α × α × Bool :=
  l.foldl
    (fun st i =>
      if st.2.2 then st
      else
        let absUii := |Uw i i|
        if st.1 ≤ sN ∨ st.2.1 ≤ sN ∨ absUii ≤ sN then (0, st.2.1, true)
        else
          let invMi := min st.2.1 (absUii * st.1)
          let invGi := if 0 < i then st.1 * (absUii / (absUii + cN i)) else st.1
          (invGi, invMi, false))
    st

/-- One step `i` of the explicit overflow-guarded backward substitution
(source lines 145-224).  The state is `(xj, xjMax, scales_j)`; `xH` is the
view height, `Uw` the diagonally shifted matrix, `cN` the column norms. -/
def substStep (sN bN : α) (xH : ℕ) (Uw : ℕ → ℕ → α) (cN : ℕ → α) (i : ℕ)
    (st : (ℕ → α) × α × α) : (ℕ → α) × α × α :=
  let xj := st.1
  let xjMax := st.2.1
  let sc := st.2.2
  let Uii := Uw i i
  let absUii := |Uii|
  let Xij0 := xj i
  let absXij0 := |Xij0|
  -- the division phase: (Xij, xj, xjMax, scales_j) afterwards
  let t1 : α × (ℕ → α) × α × α :=
    if sN < absUii then
      if absUii ≤ 1 ∧ absUii * bN ≤ absXij0 then
        let s := 1 / 2 / absXij0
        (s * Xij0 / Uii, scaleHead xH s xj, s * xjMax, s * sc)
      else (Xij0 / Uii, xj, xjMax, sc)
    else if 0 < absUii then
      if absUii * bN ≤ absXij0 then
        let s := 1 / 2 * absUii * bN / absXij0
        (s * Xij0 / Uii, scaleHead xH s xj, s * xjMax, s * sc)
      else (Xij0 / Uii, xj, xjMax, sc)
    else
      if sN ≤ absXij0 then (1, fun r => if r < xH then 0 else xj r, 0, 0)
      else (Xij0, xj, xjMax, sc)
  let Xij1 := t1.1
  let xj1 : ℕ → α := fun r => if r = i then Xij1 else t1.2.1 r
  let xjMax1 := t1.2.2.1
  let sc1 := t1.2.2.2
  if 0 < i then
    let absXij1 := |Xij1|
    let cNi := cN i
    -- the pre-AXPY overflow guard: (Xij, xj, xjMax, scales_j) afterwards
    let t2 : α × (ℕ → α) × α × α :=
      if 1 ≤ absXij1 ∧ (bN - xjMax1) / absXij1 ≤ cNi then
        let s := 1 / 4 / absXij1
        (s * Xij1, scaleHead xH s xj1, s * xjMax1, s * sc1)
      else if absXij1 < 1 ∧ bN - xjMax1 ≤ absXij1 * cNi then
        ((1 / 4 : α) * Xij1, scaleHead xH (1 / 4 : α) xj1, (1 / 4 : α) * xjMax1,
          (1 / 4 : α) * sc1)
      else (Xij1, xj1, xjMax1, sc1)
    (axpyCol i t2.1 Uw t2.2.1, t2.2.2.1 + |t2.1| * cNi, t2.2.2.2)
  else (xj1, xjMax1, sc1)

/-- One right-hand side `j` of the serial `MultiShiftDiagonalBlockSolve`
(source lines 89-228).  The running state is `(U, X, scales)`; `diag0` is the
diagonal saved at entry, `cN` the column norms of the original `U`,
`trsv` the external `blas::Trsv` (in-place solve of the leading `xH` entries).
The iteration first rewrites the diagonal to `diag(U) - shifts j`, prescales
the right-hand side if its max-norm reaches `bigNum`, skips it entirely
(`continue`, leaving its scale at the initialized 1) if the max-norm is at
most `smallNum`, and otherwise either calls `Trsv` (safe growth) or runs the
guarded backward substitution. -/
def colSolveMSDB (trsv : ℕ → (ℕ → ℕ → α) → (ℕ → α) → (ℕ → α)) (sN bN : α)
    (n : ℕ) (shifts : ℕ → α) (diag0 cN : ℕ → α)
    (st : (ℕ → ℕ → α) × (ℕ → ℕ → α) × (ℕ → α)) (j : ℕ) :
    (ℕ → ℕ → α) × (ℕ → ℕ → α) × (ℕ → α) :=
  let U0 := st.1
  let X := st.2.1
  let scales := st.2.2
  let xH := min n j
  let Uw := shiftDiagF n (setDiagF n U0 diag0) (-(shifts j))
  let xj0 : ℕ → α := fun r => X r j
  let xjMax0 := colMax xH xj0
  let p : (ℕ → α) × α × α :=
    if bN ≤ xjMax0 then
      let s := 1 / 2 * bN / xjMax0
      (scaleHead xH s xj0, s * xjMax0, s)
    else (xj0, xjMax0, 1)
  if p.2.1 ≤ sN then
    (Uw, fun r c => if c = j then p.1 r else X r c, scales)
  else
    let g := growthLoop sN Uw cN (List.range xH).reverse (1 / p.2.1, 1 / p.2.1, false)
    let invGi := min g.1 g.2.1
    let res : (ℕ → α) × α :=
      if sN < invGi then
        (fun r => if r < xH then trsv xH Uw p.1 r else p.1 r, p.2.2)
      else
        let f := ((List.range xH).reverse).foldl
          (fun s i => substStep sN bN xH Uw cN i s) (p.1, p.2.1, p.2.2)
        (f.1, f.2.2)
    (Uw, fun r c => if c = j then res.1 r else X r c,
      fun q => if q = j then res.2 else scales q)

/-- The serial `triang_eig::MultiShiftDiagonalBlockSolve` (source lines
41-232): saves the diagonal, initializes all scales to 1, iterates the
right-hand sides `j = 1, ..., numShifts-1` (column 0 is never touched), and
finally restores the saved diagonal.  Returns `(U, X, scales)`. -/
def msdbSolve (trsv : ℕ → (ℕ → ℕ → α) → (ℕ → α) → (ℕ → α)) (sN bN : α)
    (n numShifts : ℕ) (U X : ℕ → ℕ → α) (shifts : ℕ → α) :
    (ℕ → ℕ → α) × (ℕ → ℕ → α) × (ℕ → α) :=
  let diag0 := diagOf U
  let cN := cNormF U
  let r := ((List.range numShifts).drop 1).foldl
    (colSolveMSDB trsv sN bN n shifts diag0 cN) (U, X, fun _ => (1 : α))
  (setDiagF n r.1 diag0, r.2.1, r.2.2)

/-- The running state of the blocked serial `MultiShiftSolve`:
the triangular matrix, the right-hand sides, the per-shift scales and the
per-shift running max-norm estimates `XMax`. -/
structure MsState (α : Type) where
  U : ℕ → ℕ → α
  X : ℕ → ℕ → α
  scales : ℕ → α
  XMax : ℕ → α

/-- The max-norm of rows `k ≤ r < k + h` of column `j` of `X`. -/
def colMaxSeg (k h j : ℕ) (X : ℕ → ℕ → α) : α :=
  (List.range h).foldl (fun acc i => max acc |X (k + i) j|) 0

/-- The pre-loop of the blocked `MultiShiftSolve` (source lines 481-496):
for each right-hand side `j`, measure the max-norm of its active rows
`0 ≤ i < j` (clamped at the matrix height for totality), prescale if it
reaches `bigNum`, and record `XMax j = max(xjMax, 2 smallNum)`. -/
def msPre (sN bN : α) (m n : ℕ) (st : MsState α) : MsState α :=
  (List.range n).foldl
    (fun st j =>
      let h := min j m
      let xjMax := colMaxSeg 0 h j st.X
      if bN ≤ xjMax then
        let s := 1 / 2 * bN / xjMax
        { st with
          X := fun r c => if c = j ∧ r < h then s * st.X r c else st.X r c,
          scales := fun q => if q = j then s * st.scales q else st.scales q,
          XMax := fun q => if q = j then max (s * xjMax) (2 * sN) else st.XMax q }
      else
        { st with XMax := fun q => if q = j then max xjMax (2 * sN) else st.XMax q })
    st

/-- One panel `k` of the blocked serial `MultiShiftSolve` (source lines
499-582): the diagonal-block multi-shift solve on `U11 = U(k:k+nb, k:k+nb)`
against the active right-hand sides `X1 = X(k:k+nb, k:n)` and shifts
`k, ..., n-1`; then the per-column application of the returned scales to the
out-of-panel rows, and for `k > 0` the amortized overflow guard followed by
the GEMM update `X0 -= U01 X1`. -/
def msBlockStep (trsv : ℕ → (ℕ → ℕ → α) → (ℕ → α) → (ℕ → α)) (sN bN : α)
    (shifts : ℕ → α) (m n bsize : ℕ) (st : MsState α) (k : ℕ) : MsState α :=
  let nb := min bsize (m - k)
  let numAct := n - k
  let U11 : ℕ → ℕ → α := fun i j => st.U (k + i) (k + j)
  let X1 : ℕ → ℕ → α := fun i jc => st.X (k + i) (k + jc)
  let shiftsAct : ℕ → α := fun jc => shifts (k + jc)
  let r := msdbSolve trsv sN bN nb numAct U11 X1 shiftsAct
  let st0 : MsState α :=
    { U := fun i j => if k ≤ i ∧ i < k + nb ∧ k ≤ j ∧ j < k + nb then
        r.1 (i - k) (j - k) else st.U i j,
      X := fun i jc => if k ≤ i ∧ i < k + nb ∧ k ≤ jc ∧ jc < n then
        r.2.1 (i - k) (jc - k) else st.X i jc,
      scales := st.scales, XMax := st.XMax }
  -- apply the diagonal-block scales to the rows outside the panel
  let st1 := (List.range numAct).foldl
    (fun (st : MsState α) jA =>
      let j := jA + k
      let sg := r.2.2 jA
      if sg < 1 then
        { st with
          scales := fun q => if q = j then sg * st.scales q else st.scales q,
          X := fun rr c => if c = j ∧ (rr < k ∨ (k + nb ≤ rr ∧ rr < j)) then
            sg * st.X rr c else st.X rr c,
          XMax := fun q => if q = j then sg * st.XMax q else st.XMax q }
      else st)
    st0
  if 0 < k then
    -- amortized column norm of the U01 panel: sum of per-column max-norms / nb
    let cB := (List.range nb).foldl
      (fun acc jc => acc + colMaxSeg 0 k (k + jc) st1.U / (nb : α)) 0
    let st2 := (List.range numAct).foldl
      (fun (st : MsState α) jA =>
        let j := jA + k
        let xjMax := st.XMax j
        let X1Max := colMaxSeg k nb j st.X
        if 1 ≤ X1Max ∧ (bN - xjMax) / X1Max / (nb : α) ≤ cB then
          let s := 1 / 2 / (X1Max * (nb : α))
          { st with
            scales := fun q => if q = j then s * st.scales q else st.scales q,
            X := fun rr c => if c = j ∧ rr < j then s * st.X rr c else st.X rr c,
            XMax := fun q => if q = j then
              s * xjMax + (nb : α) * cB * (s * X1Max) else st.XMax q }
        else if X1Max < 1 ∧ (bN - xjMax) / (nb : α) ≤ cB * X1Max then
          let s := (1 / 2 : α) / (nb : α)
          { st with
            scales := fun q => if q = j then s * st.scales q else st.scales q,
            X := fun rr c => if c = j ∧ rr < j then s * st.X rr c else st.X rr c,
            XMax := fun q => if q = j then
              s * xjMax + (nb : α) * cB * (s * X1Max) else st.XMax q }
        else
          { st with XMax := fun q => if q = j then
              xjMax + (nb : α) * cB * X1Max else st.XMax q })
      st1
    { st2 with
      X := fun rr c => if rr < k ∧ k ≤ c ∧ c < n then
        st2.X rr c - ∑ t ∈ Finset.range nb, st2.U rr (k + t) * st2.X (k + t) c
      else st2.X rr c }
  else st1

/-- The serial blocked `triang_eig::MultiShiftSolve` (source lines 443-583):
initialize all scales to 1, run the per-column prescale pass, then sweep the
panels from the bottom-right corner upward (`k = kLast, kLast-bsize, ..., 0`
with `kLast = LastOffset(m, bsize) = bsize*((m-1)/bsize)`). -/
def msSolve (trsv : ℕ → (ℕ → ℕ → α) → (ℕ → α) → (ℕ → α)) (sN bN : α)
    (bsize m n : ℕ) (U X : ℕ → ℕ → α) (shifts : ℕ → α) : MsState α :=
  let kLast := bsize * ((m - 1) / bsize)
  let ks := (List.range (kLast / bsize + 1)).map (fun t => kLast - t * bsize)
  let st0 := msPre sN bN m n
    { U := U, X := X, scales := fun _ => 1, XMax := fun _ => 0 }
  ks.foldl (msBlockStep trsv sN bN shifts m n bsize) st0

end TriangEigSolve

section RealNorm

/-- The Euclidean norm on the leading `n` entries, over the reals: the
mathematical content of the external BLAS `Nrm2`, used to settle the
sign-structure question about the dual residual at a concrete real input. -/
noncomputable def nrm2R (n : ℕ) (v : ℕ → ℝ) : ℝ :=
  Real.sqrt (∑ i ∈ Finset.range n, v i ^ 2)

/-- A concrete one-constraint, one-variable QP instance:
`m = n = 1`, `Q = (0)`, `A = (2)`, `b = (1)`, `c = (-1)`. -/
def cxDat : QPDataL ℝ :=
  ⟨1, 1, fun _ _ => 0, fun _ _ => 2, fun _ => 1, fun _ => -1⟩

/-- The concrete strictly interior iterate `x = y = z = (1)` for `cxDat`. -/
def cxSt : IterStateL ℝ := ⟨fun _ => 1, fun _ => 1, fun _ => 1⟩

end RealNorm

section TheoremsIPF

variable {α : Type} [LinearOrderedField α]

theorem numNonPositive_pos_iff (n : ℕ) (v : ℕ → α) :
    0 < numNonPositive n v ↔ ∃ i, i < n ∧ v i ≤ 0 := by
  unfold numNonPositive
  rw [List.length_pos]
  constructor
  · intro h
    obtain ⟨x, hx⟩ := List.exists_mem_of_ne_nil _ h
    rw [List.mem_filter, List.mem_range] at hx
    exact ⟨x, hx.1, by simpa using hx.2⟩
  · rintro ⟨i, hin, hle⟩ hnil
    have hm : i ∈ (List.range n).filter (fun i => v i ≤ 0) := by
      rw [List.mem_filter, List.mem_range]
      exact ⟨hin, by simpa using hle⟩
    simp [hnil] at hm

theorem numNonPositive_eq_zero_iff (n : ℕ) (v : ℕ → α) :
    numNonPositive n v = 0 ↔ ∀ i, i < n → 0 < v i := by
  constructor
  · intro h i hin
    by_contra hle
    have hp : 0 < numNonPositive n v :=
      (numNonPositive_pos_iff n v).2 ⟨i, hin, not_lt.1 hle⟩
    omega
  · intro h
    by_contra hne
    obtain ⟨i, hin, hle⟩ := (numNonPositive_pos_iff n v).1 (Nat.pos_of_ne_zero hne)
    exact absurd (h i hin) (not_lt.2 hle)

/-- C3: at the top of every IPF iteration, before the convergence test, the
cone precondition fires exactly when some entry of `x` or of `z` is
nonpositive, and the fatal error carries the two counts of nonpositive
entries; when all entries of `x` and `z` are strictly positive the error
branch is unreachable. -/
theorem qp_IPF_cone_check (nrm2 : ℕ → (ℕ → α) → α) (dat : QPDataL α) (tol : α)
    (maxIts numIts : ℕ) (st : IterStateL α) :
    (checkPhase nrm2 dat tol maxIts numIts st =
        StepCheckL.coneError (numNonPositive dat.n st.x) (numNonPositive dat.n st.z)
      ↔ (∃ i, i < dat.n ∧ st.x i ≤ 0) ∨ (∃ i, i < dat.n ∧ st.z i ≤ 0))
    ∧ ((∀ i, i < dat.n → 0 < st.x i) → (∀ i, i < dat.n → 0 < st.z i) →
        ∀ a b, checkPhase nrm2 dat tol maxIts numIts st ≠ StepCheckL.coneError a b) := by
  constructor
  · by_cases h : 0 < numNonPositive dat.n st.x ∨ 0 < numNonPositive dat.n st.z
    · simp only [checkPhase, if_pos h]
      constructor
      · intro _
        rcases h with h | h
        · exact Or.inl ((numNonPositive_pos_iff _ _).1 h)
        · exact Or.inr ((numNonPositive_pos_iff _ _).1 h)
      · intro _; trivial
    · simp only [checkPhase, if_neg h]
      constructor
      · intro hc
        exfalso
        split at hc
        · exact StepCheckL.noConfusion hc
        · split at hc
          · exact StepCheckL.noConfusion hc
          · exact StepCheckL.noConfusion hc
      · intro hex
        exfalso
        apply h
        rcases hex with ⟨i, hi, hle⟩ | ⟨i, hi, hle⟩
        · exact Or.inl ((numNonPositive_pos_iff _ _).2 ⟨i, hi, hle⟩)
        · exact Or.inr ((numNonPositive_pos_iff _ _).2 ⟨i, hi, hle⟩)
  · intro hx hz a b hc
    have h : ¬(0 < numNonPositive dat.n st.x ∨ 0 < numNonPositive dat.n st.z) := by
      rw [not_or]
      constructor
      · rw [not_lt, Nat.le_zero, numNonPositive_eq_zero_iff]; exact hx
      · rw [not_lt, Nat.le_zero, numNonPositive_eq_zero_iff]; exact hz
    simp only [checkPhase, if_neg h] at hc
    split at hc
    · exact StepCheckL.noConfusion hc
    · split at hc
      · exact StepCheckL.noConfusion hc
      · exact StepCheckL.noConfusion hc

/-- Witness for `qp_IPF_cone_check` at a concrete rational instance. -/
theorem qp_IPF_cone_check_witness :
    ((∀ i, i < 1 → 0 < (fun _ : ℕ => (1 : ℚ)) i)
      ∧ checkPhase (fun _ _ => 0) ⟨1, 1, fun _ _ => 0, fun _ _ => 0, fun _ => 0, fun _ => 0⟩
          (1 : ℚ) 5 0 ⟨fun _ => 1, fun _ => 1, fun _ => 1⟩ ≠ StepCheckL.coneError 0 0) := by
  refine ⟨fun i _ => one_pos, ?_⟩
  exact (qp_IPF_cone_check (fun _ _ => 0)
    ⟨1, 1, fun _ _ => 0, fun _ _ => 0, fun _ => 0, fun _ => 0⟩ (1 : ℚ) 5 0
    ⟨fun _ => 1, fun _ => 1, fun _ => 1⟩).2
    (fun i _ => one_pos) (fun i _ => one_pos) 0 0

theorem checkPhase_proceed_of (nrm2 : ℕ → (ℕ → α) → α) (dat : QPDataL α) (tol : α)
    (maxIts numIts : ℕ) (st : IterStateL α)
    (hx : numNonPositive dat.n st.x = 0) (hz : numNonPositive dat.n st.z = 0)
    (hnc : ¬(objConvOf dat st ≤ tol ∧ rbConvOf nrm2 dat st ≤ tol ∧
      rcConvOf nrm2 dat st ≤ tol))
    (hk : numIts ≠ maxIts) :
    checkPhase nrm2 dat tol maxIts numIts st = StepCheckL.proceed := by
  have h : ¬(0 < numNonPositive dat.n st.x ∨ 0 < numNonPositive dat.n st.z) := by
    omega
  simp only [checkPhase, if_neg h, if_neg hnc, if_neg hk]

theorem checkPhase_maxIts_of (nrm2 : ℕ → (ℕ → α) → α) (dat : QPDataL α) (tol : α)
    (maxIts : ℕ) (st : IterStateL α)
    (hx : numNonPositive dat.n st.x = 0) (hz : numNonPositive dat.n st.z = 0)
    (hnc : ¬(objConvOf dat st ≤ tol ∧ rbConvOf nrm2 dat st ≤ tol ∧
      rcConvOf nrm2 dat st ≤ tol)) :
    checkPhase nrm2 dat tol maxIts maxIts st = StepCheckL.maxItsError maxIts := by
  have h : ¬(0 < numNonPositive dat.n st.x ∨ 0 < numNonPositive dat.n st.z) := by
    omega
  simp only [checkPhase]
  rw [if_neg h, if_neg hnc]
  simp

/-- C4: the iteration-budget check sits after the convergence test, so a call
whose initial iterate already satisfies all three criteria succeeds with any
budget, including `maxIts = 0`; and whenever the criteria never all hold
through iteration `maxIts`, the call fails with the fatal budget error
carrying the configured maximum (which equals the iteration count at the
check), returning no iterate. -/
theorem qp_IPF_iteration_budget (nrm2 : ℕ → (ℕ → α) → α) (dat : QPDataL α)
    (tol : α) (dir : ℕ → IterStateL α → (ℕ → α) × (ℕ → α) × (ℕ → α))
    (ls : ℕ → α → α) (st0 : IterStateL α) :
    ((numNonPositive dat.n st0.x = 0) → (numNonPositive dat.n st0.z = 0) →
      (objConvOf dat st0 ≤ tol ∧ rbConvOf nrm2 dat st0 ≤ tol ∧
        rcConvOf nrm2 dat st0 ≤ tol) →
      ∀ maxIts, ipfRun nrm2 dat tol dir ls maxIts st0 = IPFResultL.success st0)
    ∧ (∀ maxIts,
        (∀ k, k ≤ maxIts →
          numNonPositive dat.n (ipfTraj dat.n dir ls st0 k).x = 0 ∧
          numNonPositive dat.n (ipfTraj dat.n dir ls st0 k).z = 0 ∧
          ¬(objConvOf dat (ipfTraj dat.n dir ls st0 k) ≤ tol ∧
            rbConvOf nrm2 dat (ipfTraj dat.n dir ls st0 k) ≤ tol ∧
            rcConvOf nrm2 dat (ipfTraj dat.n dir ls st0 k) ≤ tol)) →
        ipfRun nrm2 dat tol dir ls maxIts st0 = IPFResultL.maxItsError maxIts) := by
  constructor
  · intro hx hz hconv maxIts
    have hcp : checkPhase nrm2 dat tol maxIts 0 st0 = StepCheckL.converged := by
      have h : ¬(0 < numNonPositive dat.n st0.x ∨ 0 < numNonPositive dat.n st0.z) := by
        omega
      simp only [checkPhase, if_neg h, if_pos hconv]
    show ipfAux nrm2 dat tol dir ls maxIts (maxIts + 1) 0 st0 = _
    rw [ipfAux, hcp]
  · intro maxIts hall
    have key : ∀ d j, j + d = maxIts →
        ipfAux nrm2 dat tol dir ls maxIts (d + 1) j (ipfTraj dat.n dir ls st0 j) =
          IPFResultL.maxItsError maxIts := by
      intro d
      induction d with
      | zero =>
        intro j hj
        have hj0 : j = maxIts := by omega
        rw [hj0]
        obtain ⟨hx, hz, hnc⟩ := hall maxIts le_rfl
        rw [ipfAux, checkPhase_maxIts_of nrm2 dat tol maxIts _ hx hz hnc]
      | succ d ih =>
        intro j hj
        have hjlt : j < maxIts := by omega
        obtain ⟨hx, hz, hnc⟩ := hall j (le_of_lt hjlt)
        rw [ipfAux, checkPhase_proceed_of nrm2 dat tol maxIts j _ hx hz hnc (by omega)]
        show ipfAux nrm2 dat tol dir ls maxIts (d + 1) (j + 1)
          (ipfTraj dat.n dir ls st0 (j + 1)) = IPFResultL.maxItsError maxIts
        exact ih (j + 1) (by omega)
    have h0 : ipfTraj dat.n dir ls st0 0 = st0 := rfl
    have := key maxIts 0 (by omega)
    rw [h0] at this
    exact this

/-- Witness for `qp_IPF_iteration_budget`: with zero data and tolerance 1 the
initial iterate converges immediately even for `maxIts = 0`, and with
tolerance `-1` (unreachable by the nonnegative criteria) a zero-direction
oracle exhausts the budget. -/
theorem qp_IPF_iteration_budget_witness :
    (ipfRun (fun _ _ => 0)
        (⟨1, 1, fun _ _ => 0, fun _ _ => 0, fun _ => 0, fun _ => 0⟩ : QPDataL ℚ) 1
        (fun _ _ => (fun _ => 0, fun _ => 0, fun _ => 0)) (fun _ a => a) 0
        ⟨fun _ => 1, fun _ => 1, fun _ => 1⟩ =
      IPFResultL.success ⟨fun _ => 1, fun _ => 1, fun _ => 1⟩)
    ∧ (ipfRun (fun _ _ => 0)
        (⟨1, 1, fun _ _ => 0, fun _ _ => 0, fun _ => 0, fun _ => 0⟩ : QPDataL ℚ) (-1)
        (fun _ _ => (fun _ => 0, fun _ => 0, fun _ => 0)) (fun _ _ => 0) 2
        ⟨fun _ => 1, fun _ => 1, fun _ => 1⟩ = IPFResultL.maxItsError 2) := by
  constructor
  · exact (qp_IPF_iteration_budget (fun _ _ => 0)
      (⟨1, 1, fun _ _ => 0, fun _ _ => 0, fun _ => 0, fun _ => 0⟩ : QPDataL ℚ) 1
      (fun _ _ => (fun _ => 0, fun _ => 0, fun _ => 0)) (fun _ a => a)
      ⟨fun _ => 1, fun _ => 1, fun _ => 1⟩).1 (by decide)
      (by decide) (by norm_num [objConvOf, rbConvOf, rcConvOf, primObjOf, dualObjOf,
        xTQxOf, dotv, matVec, matTVec, rbVecOf, rcVecOf]) 0
  · refine (qp_IPF_iteration_budget (fun _ _ => 0)
      (⟨1, 1, fun _ _ => 0, fun _ _ => 0, fun _ => 0, fun _ => 0⟩ : QPDataL ℚ) (-1)
      (fun _ _ => (fun _ => 0, fun _ => 0, fun _ => 0)) (fun _ _ => 0)
      ⟨fun _ => 1, fun _ => 1, fun _ => 1⟩).2 2 ?_
    intro k hk
    have htraj : ∀ j i, (ipfTraj (1 : ℕ)
        (fun _ _ => (fun _ => (0:ℚ), fun _ => 0, fun _ => 0)) (fun _ _ => 0)
        (⟨fun _ => 1, fun _ => 1, fun _ => 1⟩ : IterStateL ℚ) j).x i = 1 ∧
        (ipfTraj (1 : ℕ)
        (fun _ _ => (fun _ => (0:ℚ), fun _ => 0, fun _ => 0)) (fun _ _ => 0)
        (⟨fun _ => 1, fun _ => 1, fun _ => 1⟩ : IterStateL ℚ) j).z i = 1 := by
      intro j
      induction j with
      | zero => exact fun i => ⟨rfl, rfl⟩
      | succ j ihj =>
        intro i
        simp only [ipfTraj, ipfStep, ipfStepUpd]
        exact ⟨by rw [(ihj i).1]; ring, by rw [(ihj i).2]; ring⟩
    refine ⟨?_, ?_, ?_⟩
    · rw [numNonPositive_eq_zero_iff]
      intro i _
      rw [(htraj k i).1]
      norm_num
    · rw [numNonPositive_eq_zero_iff]
      intro i _
      rw [(htraj k i).2]
      norm_num
    · rintro ⟨hobj, -, -⟩
      have h0 : (0 : ℚ) ≤ objConvOf
          (⟨1, 1, fun _ _ => 0, fun _ _ => 0, fun _ => 0, fun _ => 0⟩ : QPDataL ℚ)
          (ipfTraj 1 (fun _ _ => (fun _ => (0:ℚ), fun _ => 0, fun _ => 0))
            (fun _ _ => 0) ⟨fun _ => 1, fun _ => 1, fun _ => 1⟩ k) := by
        unfold objConvOf
        positivity
      linarith

theorem regTrace_fold_char (nlrs : List ℕ) :
    ∀ (rc : ℕ → α) (inc : Bool),
      nlrs.foldl (fun p nlr => regEscalate nlr p.1 p.2) (rc, inc) =
        if inc = false ∧ ∃ t ∈ nlrs, 3 < t then (fun i => 10 * rc i, true)
        else (rc, inc) := by
  induction nlrs with
  | nil => intro rc inc; simp
  | cons a l ih =>
    intro rc inc
    simp only [List.foldl_cons]
    cases inc with
    | true =>
      have hstep : regEscalate a rc true = (rc, true) := by
        simp [regEscalate]
      rw [hstep, ih]
      have h1 : ¬(true = false ∧ ∃ t ∈ l, 3 < t) := by simp
      have h2 : ¬(true = false ∧ ∃ t ∈ a :: l, 3 < t) := by simp
      rw [if_neg h1, if_neg h2]
    | false =>
      by_cases ha : 3 < a
      · have hstep : regEscalate a rc false = (fun i => 10 * rc i, true) := by
          simp [regEscalate, ha]
        rw [hstep, ih]
        have h1 : ¬(true = false ∧ ∃ t ∈ l, 3 < t) := by simp
        have h2 : false = false ∧ ∃ t ∈ a :: l, 3 < t :=
          ⟨rfl, a, List.mem_cons_self a l, ha⟩
        rw [if_neg h1, if_pos h2]
      · have hstep : regEscalate a rc false = (rc, false) := by
          simp [regEscalate, ha]
        rw [hstep, ih]
        by_cases hl : ∃ t ∈ l, 3 < t
        · obtain ⟨t, ht, h3⟩ := hl
          have h2 : false = false ∧ ∃ t ∈ a :: l, 3 < t :=
            ⟨rfl, t, List.mem_cons_of_mem a ht, h3⟩
          rw [if_pos ⟨rfl, t, ht, h3⟩, if_pos h2]
        · have h2 : ¬(false = false ∧ ∃ t ∈ a :: l, 3 < t) := by
            rintro ⟨-, t, ht, h3⟩
            rcases List.mem_cons.1 ht with rfl | ht
            · exact ha h3
            · exact hl ⟨t, ht, h3⟩
          rw [if_neg (fun h => hl h.2), if_neg h2]

/-- C5: across one sparse / distributed-sparse IPF call the regularization
candidate either stays put or is scaled by exactly 10 once, the escalation
being triggered exactly when some iteration reports more than 3 large
refinement corrections (the `increasedReg` flag blocks any repeat), so the
entrywise magnitude of `regCand` never decreases. -/
theorem qp_IPF_regCand_escalation (nlrs : List ℕ) (rc0 : ℕ → α) :
    (regTrace nlrs rc0 =
      if ∃ t ∈ nlrs, 3 < t then (fun i => 10 * rc0 i, true) else (rc0, false))
    ∧ ((regTrace nlrs rc0).1 = rc0 ∨ (regTrace nlrs rc0).1 = fun i => 10 * rc0 i)
    ∧ (∀ i, |rc0 i| ≤ |(regTrace nlrs rc0).1 i|) := by
  have hchar := regTrace_fold_char nlrs rc0 false
  have hchar2 : regTrace nlrs rc0 =
      if ∃ t ∈ nlrs, 3 < t then (fun i => 10 * rc0 i, true) else (rc0, false) := by
    rw [regTrace, hchar]
    by_cases h : ∃ t ∈ nlrs, 3 < t <;> simp [h]
  refine ⟨hchar2, ?_, ?_⟩
  · rw [hchar2]
    by_cases h : ∃ t ∈ nlrs, 3 < t
    · right; simp [h]
    · left; simp [h]
  · intro i
    rw [hchar2]
    by_cases h : ∃ t ∈ nlrs, 3 < t
    · simp only [if_pos h]
      rw [abs_mul]
      have h10 : (1 : α) ≤ |(10 : α)| := by
        rw [abs_of_pos (by norm_num : (0:α) < 10)]
        norm_num
      calc |rc0 i| = 1 * |rc0 i| := (one_mul _).symm
        _ ≤ |(10 : α)| * |rc0 i| := by
          exact mul_le_mul_of_nonneg_right h10 (abs_nonneg _)
    · simp [if_neg h]

/-- C6: the a-priori regularization candidate built by the sparse and
distributed-sparse IPF variants carries `+P` (with `P = Pow(eps, 0.75) > 0`)
on the primal block `i < n` and `-L`, `-D` (with
`L = D = Pow(eps, 0.5) > 0`) on the Lagrange and dual blocks, so the primal
block is strictly positive and the remaining blocks strictly negative, for
both the `FULL_KKT` (size `m + 2n`) and `AUGMENTED_KKT` (size `n + m`)
layouts. -/
theorem qp_IPF_regCand_init_signs (m n : ℕ) (P L D : α)
    (hP : 0 < P) (hL : 0 < L) (hD : 0 < D) :
    (∀ i, i < n → regCandInitFull m n P L D i = P ∧ 0 < regCandInitFull m n P L D i)
    ∧ (∀ i, n ≤ i → i < n + m →
        regCandInitFull m n P L D i = -L ∧ regCandInitFull m n P L D i < 0)
    ∧ (∀ i, n + m ≤ i →
        regCandInitFull m n P L D i = -D ∧ regCandInitFull m n P L D i < 0)
    ∧ (∀ i, i < n → regCandInitAug m n P L i = P ∧ 0 < regCandInitAug m n P L i)
    ∧ (∀ i, n ≤ i → regCandInitAug m n P L i = -L ∧ regCandInitAug m n P L i < 0) := by
  refine ⟨?_, ?_, ?_, ?_, ?_⟩
  · intro i hi
    have hval : regCandInitFull m n P L D i = P := by
      unfold regCandInitFull; rw [if_pos hi]
    rw [hval]
    exact ⟨rfl, hP⟩
  · intro i hni hnm
    have hval : regCandInitFull m n P L D i = -L := by
      unfold regCandInitFull; rw [if_neg (by omega : ¬ i < n), if_pos hnm]
    rw [hval]
    exact ⟨rfl, by linarith⟩
  · intro i hnm
    have hval : regCandInitFull m n P L D i = -D := by
      unfold regCandInitFull
      rw [if_neg (by omega : ¬ i < n), if_neg (by omega : ¬ i < n + m)]
    rw [hval]
    exact ⟨rfl, by linarith⟩
  · intro i hi
    have hval : regCandInitAug m n P L i = P := by
      unfold regCandInitAug; rw [if_pos hi]
    rw [hval]
    exact ⟨rfl, hP⟩
  · intro i hni
    have hval : regCandInitAug m n P L i = -L := by
      unfold regCandInitAug; rw [if_neg (by omega : ¬ i < n)]
    rw [hval]
    exact ⟨rfl, by linarith⟩

/-- Witness for `qp_IPF_regCand_init_signs` at `m = n = 1`, `P = L = D = 1`. -/
theorem qp_IPF_regCand_init_signs_witness :
    (0 : ℚ) < 1 ∧ regCandInitFull 1 1 (1 : ℚ) 1 1 0 = 1 ∧
      regCandInitFull 1 1 (1 : ℚ) 1 1 1 = -1 ∧ regCandInitFull 1 1 (1 : ℚ) 1 1 2 = -1 := by
  have h := qp_IPF_regCand_init_signs 1 1 (1 : ℚ) 1 1 one_pos one_pos one_pos
  exact ⟨one_pos, (h.1 0 (by norm_num)).1, (h.2.1 1 (by norm_num) (by norm_num)).1,
    (h.2.2.1 2 (by norm_num)).1⟩

theorem maxStepPC_fold_le (v dv : ℕ → α) (l : List ℕ) :
    ∀ ub : α,
      l.foldl (fun acc i => if dv i < 0 then min acc (-(v i) / dv i) else acc) ub ≤ ub := by
  induction l with
  | nil => intro ub; exact le_refl ub
  | cons a l ih =>
    intro ub
    simp only [List.foldl_cons]
    refine le_trans (ih _) ?_
    by_cases h : dv a < 0
    · rw [if_pos h]; exact min_le_left _ _
    · rw [if_neg h]

theorem maxStepPC_fold_ratio (v dv : ℕ → α) (l : List ℕ) :
    ∀ ub : α, ∀ i ∈ l, dv i < 0 →
      l.foldl (fun acc i => if dv i < 0 then min acc (-(v i) / dv i) else acc) ub ≤
        -(v i) / dv i := by
  induction l with
  | nil => intro ub i hi; exact absurd hi (List.not_mem_nil i)
  | cons a l ih =>
    intro ub i hi hneg
    simp only [List.foldl_cons]
    rcases List.mem_cons.1 hi with rfl | hi
    · refine le_trans (maxStepPC_fold_le v dv l _) ?_
      rw [if_pos hneg]
      exact min_le_right _ _
    · exact ih _ i hi hneg

theorem maxStepPC_le_ub (n : ℕ) (v dv : ℕ → α) (ub : α) :
    maxStepPC n v dv ub ≤ ub :=
  maxStepPC_fold_le v dv (List.range n) ub

theorem maxStepPC_le_ratio (n : ℕ) (v dv : ℕ → α) (ub : α) (i : ℕ)
    (hi : i < n) (hneg : dv i < 0) :
    maxStepPC n v dv ub ≤ -(v i) / dv i :=
  maxStepPC_fold_ratio v dv (List.range n) ub i (List.mem_range.2 hi) hneg

theorem maxStepPC_keeps_pos (n : ℕ) (v dv : ℕ → α) (ub a : α)
    (ha0 : 0 ≤ a) (halt : a < maxStepPC n v dv ub) (i : ℕ) (hi : i < n)
    (hvi : 0 < v i) : 0 < v i + a * dv i := by
  rcases le_or_lt 0 (dv i) with h | h
  · have : 0 ≤ a * dv i := mul_nonneg ha0 h
    linarith
  · have hlt : a < -(v i) / dv i := lt_of_lt_of_le halt (maxStepPC_le_ratio n v dv ub i hi h)
    have heq : -(v i) / dv i = v i / (-(dv i)) := by
      rw [div_neg_eq_neg_div]
      ring_nf
    rw [heq] at hlt
    have hdpos : 0 < -(dv i) := by linarith
    have := (lt_div_iff₀ hdpos).1 hlt
    nlinarith

/-- C7: in a non-converged IPF iteration the bound handed to the line search
is exactly `0.99 * min(alphaPrimal, alphaDual)` where the two factors are the
ratio tests (capped at 1, as the source calls `MaxStepInPositiveCone(·,·,1)`)
over the negative-direction entries of `(x,dx)` and `(z,dz)`; each ratio test
is at most every individual ratio and keeps the iterate strictly positive
below it; and the new iterate is exactly `x + α dx, y + α dy, z + α dz` with
`α` the value the line search returns at that bound. -/
theorem qp_IPF_step_bound (n : ℕ) (ls : α → α) (st : IterStateL α)
    (dx dy dz : ℕ → α) :
    ((ipfStep n ls st dx dy dz).x = fun i => st.x i + ls (lsBound n st dx dz) * dx i)
    ∧ ((ipfStep n ls st dx dy dz).y = fun i => st.y i + ls (lsBound n st dx dz) * dy i)
    ∧ ((ipfStep n ls st dx dy dz).z = fun i => st.z i + ls (lsBound n st dx dz) * dz i)
    ∧ lsBound n st dx dz =
        (99 / 100 : α) * min (maxStepPC n st.x dx 1) (maxStepPC n st.z dz 1)
    ∧ maxStepPC n st.x dx 1 ≤ 1
    ∧ maxStepPC n st.z dz 1 ≤ 1
    ∧ (∀ i, i < n → dx i < 0 → maxStepPC n st.x dx 1 ≤ -(st.x i) / dx i)
    ∧ (∀ i, i < n → dz i < 0 → maxStepPC n st.z dz 1 ≤ -(st.z i) / dz i)
    ∧ (∀ a, 0 ≤ a → a < maxStepPC n st.x dx 1 →
        ∀ i, i < n → 0 < st.x i → 0 < st.x i + a * dx i)
    ∧ (∀ a, 0 ≤ a → a < maxStepPC n st.z dz 1 →
        ∀ i, i < n → 0 < st.z i → 0 < st.z i + a * dz i) := by
  refine ⟨rfl, rfl, rfl, rfl, maxStepPC_le_ub n st.x dx 1, maxStepPC_le_ub n st.z dz 1,
    ?_, ?_, ?_, ?_⟩
  · intro i hi hneg; exact maxStepPC_le_ratio n st.x dx 1 i hi hneg
  · intro i hi hneg; exact maxStepPC_le_ratio n st.z dz 1 i hi hneg
  · intro a ha0 halt i hi hpos; exact maxStepPC_keeps_pos n st.x dx 1 a ha0 halt i hi hpos
  · intro a ha0 halt i hi hpos; exact maxStepPC_keeps_pos n st.z dz 1 a ha0 halt i hi hpos

/-- Witness for `qp_IPF_step_bound` at a concrete rational step. -/
theorem qp_IPF_step_bound_witness :
    ((0 : ℚ) ≤ 1/4 ∧ (1/4 : ℚ) < maxStepPC 1 (fun _ => (1:ℚ)) (fun _ => -2) 1) ∧
      (0 : ℚ) < (1 : ℚ) + (1/4 : ℚ) * (-2) := by
  have hms : maxStepPC 1 (fun _ => (1:ℚ)) (fun _ => -2) 1 = 1/2 := by
    norm_num [maxStepPC, List.range_succ, min_def]
  have h := (qp_IPF_step_bound 1 (fun a => a)
    (⟨fun _ => (1:ℚ), fun _ => 1, fun _ => 1⟩ : IterStateL ℚ)
    (fun _ => -2) (fun _ => 0) (fun _ => 0)).2.2.2.2.2.2.2.2.1
  have hp := h (1/4) (by norm_num)
    (show (1/4 : ℚ) < maxStepPC 1 (fun _ => (1:ℚ)) (fun _ => -2) 1 by
      rw [hms]; norm_num)
    0 (by norm_num) (by norm_num)
  exact ⟨⟨by norm_num, by rw [hms]; norm_num⟩, hp⟩

/-- C2 (amended): provided the cone precondition passes, an IPF iteration
breaks out of the loop (toward unequilibration) exactly when all three
relative measures are simultaneously at most `ctrl.tol` — the objective gap,
the primal residual, and the dual residual computed as
`‖Qx + Aᵀy - z + c‖ / (1 + ‖c‖)`, i.e. with a `+ c` term (`rcVecOf`), not the
`- c` the spec asserts; and on a break the loop returns the current iterate. -/
theorem qp_IPF_convergence_break_iff (nrm2 : ℕ → (ℕ → α) → α) (dat : QPDataL α)
    (tol : α) (dir : ℕ → IterStateL α → (ℕ → α) × (ℕ → α) × (ℕ → α))
    (ls : ℕ → α → α) (maxIts numIts fuel : ℕ) (st : IterStateL α)
    (hx : numNonPositive dat.n st.x = 0) (hz : numNonPositive dat.n st.z = 0) :
    (checkPhase nrm2 dat tol maxIts numIts st = StepCheckL.converged ↔
      (objConvOf dat st ≤ tol ∧ rbConvOf nrm2 dat st ≤ tol ∧
        rcConvOf nrm2 dat st ≤ tol))
    ∧ (checkPhase nrm2 dat tol maxIts numIts st = StepCheckL.converged →
        ipfAux nrm2 dat tol dir ls maxIts (fuel + 1) numIts st =
          IPFResultL.success st) := by
  have h : ¬(0 < numNonPositive dat.n st.x ∨ 0 < numNonPositive dat.n st.z) := by
    omega
  constructor
  · simp only [checkPhase, if_neg h]
    constructor
    · intro hc
      by_contra hnc
      rw [if_neg hnc] at hc
      split at hc
      · exact StepCheckL.noConfusion hc
      · exact StepCheckL.noConfusion hc
    · intro hcv
      rw [if_pos hcv]
  · intro hc
    rw [ipfAux, hc]

/-- Witness for `qp_IPF_convergence_break_iff` on a rational instance whose
initial iterate converges immediately. -/
theorem qp_IPF_convergence_break_iff_witness :
    (numNonPositive 1 (fun _ : ℕ => (1:ℚ)) = 0) ∧
      (checkPhase (fun _ _ => 0)
        (⟨1, 1, fun _ _ => 0, fun _ _ => 0, fun _ => 0, fun _ => 0⟩ : QPDataL ℚ) 1 7 0
        ⟨fun _ => 1, fun _ => 1, fun _ => 1⟩ = StepCheckL.converged →
      ipfAux (fun _ _ => 0)
        (⟨1, 1, fun _ _ => 0, fun _ _ => 0, fun _ => 0, fun _ => 0⟩ : QPDataL ℚ) 1
        (fun _ _ => (fun _ => 0, fun _ => 0, fun _ => 0)) (fun _ a => a) 7 1 0
        ⟨fun _ => 1, fun _ => 1, fun _ => 1⟩ =
        IPFResultL.success ⟨fun _ => 1, fun _ => 1, fun _ => 1⟩) := by
  have hnp : numNonPositive 1 (fun _ : ℕ => (1:ℚ)) = 0 := by
    rw [numNonPositive_eq_zero_iff]
    intro i _
    norm_num
  exact ⟨hnp, (qp_IPF_convergence_break_iff (fun _ _ => 0)
    (⟨1, 1, fun _ _ => 0, fun _ _ => 0, fun _ => 0, fun _ => 0⟩ : QPDataL ℚ) 1
    (fun _ _ => (fun _ => 0, fun _ => 0, fun _ => 0)) (fun _ a => a) 7 0 0
    ⟨fun _ => 1, fun _ => 1, fun _ => 1⟩ hnp hnp).2⟩

theorem nrm2R_const_one : nrm2R 1 (fun _ => (1:ℝ)) = 1 := by
  simp [nrm2R, Finset.sum_range_one]

theorem nrm2R_const_negone : nrm2R 1 (fun _ => (-1:ℝ)) = 1 := by
  simp [nrm2R, Finset.sum_range_one]

theorem nrm2R_const_zero : nrm2R 1 (fun _ => (0:ℝ)) = 0 := by
  simp [nrm2R, Finset.sum_range_one]

theorem nrm2R_const_two : nrm2R 1 (fun _ => (2:ℝ)) = 2 := by
  rw [nrm2R, Finset.sum_range_one]
  rw [show ((2:ℝ)) ^ 2 = 2 ^ 2 from rfl]
  exact Real.sqrt_sq (by norm_num)

/-- C2 counterexample: at the concrete QP `Q = (0), A = (2), b = (1),
c = (-1)` with strictly interior iterate `x = y = z = (1)` and
`tol = 1/2`, the source's convergence test passes (the loop breaks), yet the
spec's dual-residual criterion `‖Qx + Aᵀy - z - c‖₂ / (1 + ‖c‖₂) ≤ tol`
fails (`2/(1+1) = 1 > 1/2`): the claimed three-way equivalence with the
`- c` residual is false, because the source computes the residual with `+ c`
(`rcVecOf`, here the zero vector). -/
theorem qp_IPF_dualResidual_sign_cx :
    checkPhase nrm2R cxDat (1/2) 5 0 cxSt = StepCheckL.converged ∧
      ¬(specRcConvOf nrm2R cxDat cxSt ≤ (1/2 : ℝ)) := by
  have hxv : cxSt.x = fun _ => (1:ℝ) := rfl
  have hnp : numNonPositive 1 (fun _ : ℕ => (1:ℝ)) = 0 := by
    rw [numNonPositive_eq_zero_iff]
    intro i _
    norm_num
  have hcone : ¬(0 < numNonPositive cxDat.n cxSt.x ∨
      0 < numNonPositive cxDat.n cxSt.z) := by
    show ¬(0 < numNonPositive 1 (fun _ => (1:ℝ)) ∨ 0 < numNonPositive 1 (fun _ => (1:ℝ)))
    rw [hnp]
    omega
  have hobj : objConvOf cxDat cxSt = 0 := by
    norm_num [objConvOf, primObjOf, dualObjOf, xTQxOf, dotv, matVec, matTVec,
      cxDat, cxSt, Finset.sum_range_one]
  have hrbvec : rbVecOf cxDat cxSt = fun _ => (1:ℝ) := by
    funext i
    norm_num [rbVecOf, matVec, cxDat, cxSt, Finset.sum_range_one]
  have hrcvec : rcVecOf cxDat cxSt = fun _ => (0:ℝ) := by
    funext j
    norm_num [rcVecOf, matVec, matTVec, cxDat, cxSt, Finset.sum_range_one]
  have hspecvec : specRcVecOf cxDat cxSt = fun _ => (2:ℝ) := by
    funext j
    norm_num [specRcVecOf, matVec, matTVec, cxDat, cxSt, Finset.sum_range_one]
  have hrb : rbConvOf nrm2R cxDat cxSt = 1/2 := by
    rw [rbConvOf]
    show nrm2R 1 (rbVecOf cxDat cxSt) / (1 + nrm2R 1 cxDat.b) = 1/2
    rw [hrbvec, show cxDat.b = fun _ => (1:ℝ) from rfl, nrm2R_const_one]
    norm_num
  have hrc : rcConvOf nrm2R cxDat cxSt = 0 := by
    rw [rcConvOf]
    show nrm2R 1 (rcVecOf cxDat cxSt) / (1 + nrm2R 1 cxDat.c) = 0
    rw [hrcvec, show cxDat.c = fun _ => (-1:ℝ) from rfl, nrm2R_const_zero,
      nrm2R_const_negone]
    norm_num
  have hspec : specRcConvOf nrm2R cxDat cxSt = 1 := by
    rw [specRcConvOf]
    show nrm2R 1 (specRcVecOf cxDat cxSt) / (1 + nrm2R 1 cxDat.c) = 1
    rw [hspecvec, show cxDat.c = fun _ => (-1:ℝ) from rfl, nrm2R_const_two,
      nrm2R_const_negone]
    norm_num
  constructor
  · simp only [checkPhase, if_neg hcone]
    rw [if_pos ⟨by rw [hobj]; norm_num, by rw [hrb], by rw [hrc]; norm_num⟩]
  · rw [hspec]
    norm_num

end TheoremsIPF

section TheoremsNodal

variable {α : Type} [LinearOrderedField α]

/-- C9 counterexample: on the default-constructed container (zero local and
zero distributed nodes — the empty-owner state the spec calls valid)
`UpdateWidth` dereferences `localNodes[0]`, an out-of-bounds access on an
empty `std::vector` (modelled as `none`); the claim that every public
operation, `UpdateWidth` included, completes on this state without an
out-of-bounds access is therefore false. -/
theorem DistNodalMultiVec_updateWidth_oob_cx :
    dnmvUpdateWidth (emptyDNMV (α := ℚ)) = none := rfl

/-- C9 (amended): the empty-owner state is valid for the remaining public
operations — `Height`, `Width`, `LocalHeight` and `UpdateHeight` complete
(returning 0), and the `Pull`/`Push` traversal of a process with no nodes is
the empty index list — while `UpdateWidth` completes exactly on containers
with at least one local node, returning the first local node's width as
canonical. -/
theorem DistNodalMultiVec_empty_ops :
    (dnmvHeight (emptyDNMV (α := α)) = 0)
    ∧ (dnmvWidth (emptyDNMV (α := α)) = 0)
    ∧ (dnmvLocalHeight (emptyDNMV (α := α)) = 0)
    ∧ (dnmvHeight (dnmvUpdateHeight (emptyDNMV (α := α))) = 0)
    ∧ (rankInds ⟨[], []⟩ = [])
    ∧ (∀ v : DistNodalMultiVecL α, (dnmvUpdateWidth v).isSome ↔ v.localNodes ≠ [])
    ∧ (∀ (v : DistNodalMultiVecL α) (a : MatL α) (l : List (MatL α)),
        v.localNodes = a :: l → dnmvUpdateWidth v = some { v with width := a.w }) := by
  refine ⟨rfl, rfl, rfl, rfl, rfl, ?_, ?_⟩
  · intro v
    cases hv : v.localNodes with
    | nil =>
      simp [dnmvUpdateWidth, hv]
    | cons a l =>
      simp [dnmvUpdateWidth, hv]
  · intro v a l hv
    simp [dnmvUpdateWidth, hv]

/-- Witness for `DistNodalMultiVec_empty_ops` at a concrete one-node
container over ℚ. -/
theorem DistNodalMultiVec_empty_ops_witness :
    (⟨3, 2, [⟨3, 2, fun _ _ => 0⟩], []⟩ : DistNodalMultiVecL ℚ).localNodes =
        ⟨3, 2, fun _ _ => (0:ℚ)⟩ :: [] ∧
      dnmvUpdateWidth (⟨3, 2, [⟨3, 2, fun _ _ => 0⟩], []⟩ : DistNodalMultiVecL ℚ) =
        some ⟨3, 2, [⟨3, 2, fun _ _ => 0⟩], []⟩ := by
  refine ⟨rfl, ?_⟩
  exact (DistNodalMultiVec_empty_ops (α := ℚ)).2.2.2.2.2.2
    ⟨3, 2, [⟨3, 2, fun _ _ => 0⟩], []⟩ ⟨3, 2, fun _ _ => 0⟩ [] rfl

end TheoremsNodal

section TheoremsTriang

variable {α : Type} [LinearOrderedField α]

theorem setDiagF_self (n : ℕ) (U : ℕ → ℕ → α) : setDiagF n U (diagOf U) = U := by
  funext i j
  simp only [setDiagF, diagOf]
  split
  · next h => rw [h.1]
  · rfl

theorem colSolveMSDB_fst (trsv : ℕ → (ℕ → ℕ → α) → (ℕ → α) → (ℕ → α))
    (sN bN : α) (n : ℕ) (shifts diag0 cN : ℕ → α)
    (st : (ℕ → ℕ → α) × (ℕ → ℕ → α) × (ℕ → α)) (j : ℕ) :
    (colSolveMSDB trsv sN bN n shifts diag0 cN st j).1 =
      shiftDiagF n (setDiagF n st.1 diag0) (-(shifts j)) := by
  simp only [colSolveMSDB]
  split <;> split <;> rfl

theorem foldl_colSolve_fst (trsv : ℕ → (ℕ → ℕ → α) → (ℕ → α) → (ℕ → α))
    (sN bN : α) (n : ℕ) (shifts diag0 cN : ℕ → α) (l : List ℕ) :
    ∀ (st : (ℕ → ℕ → α) × (ℕ → ℕ → α) × (ℕ → α)) (i j : ℕ), ¬(i = j ∧ i < n) →
      (l.foldl (colSolveMSDB trsv sN bN n shifts diag0 cN) st).1 i j = st.1 i j := by
  induction l with
  | nil => intro st i j h; rfl
  | cons a l ih =>
    intro st i j h
    rw [List.foldl_cons, ih _ i j h, colSolveMSDB_fst]
    simp only [shiftDiagF, setDiagF, if_neg h]

/-- C10: the serial `MultiShiftDiagonalBlockSolve` returns `U` exactly as it
received it: the diagonal is overwritten with shifted values at the start of
each per-column solve, but the saved diagonal is restored before returning,
and no off-diagonal entry of `U` is ever written (the per-column body only
writes the right-hand-side column and the scale). -/
theorem triangEig_msdb_restores_U (trsv : ℕ → (ℕ → ℕ → α) → (ℕ → α) → (ℕ → α))
    (sN bN : α) (n k : ℕ) (U X : ℕ → ℕ → α) (shifts : ℕ → α) :
    (msdbSolve trsv sN bN n k U X shifts).1 = U := by
  show setDiagF n (((List.range k).drop 1).foldl
      (colSolveMSDB trsv sN bN n shifts (diagOf U) (cNormF U))
      (U, X, fun _ => (1 : α))).1 (diagOf U) = U
  funext i j
  by_cases h : i = j ∧ i < n
  · obtain ⟨hij, hn⟩ := h
    subst hij
    unfold setDiagF
    rw [if_pos ⟨rfl, hn⟩]
    rfl
  · simp only [setDiagF, if_neg h]
    exact foldl_colSolve_fst trsv sN bN n shifts (diagOf U) (cNormF U) _ _ i j h

theorem msdb_trivial (trsv : ℕ → (ℕ → ℕ → α) → (ℕ → α) → (ℕ → α))
    (sN bN : α) (n k : ℕ) (hk : k ≤ 1) (U X : ℕ → ℕ → α) (shifts : ℕ → α) :
    msdbSolve trsv sN bN n k U X shifts = (U, X, fun _ => (1 : α)) := by
  have hl : (List.range k).drop 1 = [] := by
    interval_cases k <;> rfl
  simp only [msdbSolve, hl, List.foldl_nil, setDiagF_self]

theorem colSolveMSDB_col0 (trsv : ℕ → (ℕ → ℕ → α) → (ℕ → α) → (ℕ → α))
    (sN bN : α) (n : ℕ) (shifts diag0 cN : ℕ → α)
    (st : (ℕ → ℕ → α) × (ℕ → ℕ → α) × (ℕ → α)) (j : ℕ) (hj : j ≠ 0) :
    (∀ r, (colSolveMSDB trsv sN bN n shifts diag0 cN st j).2.1 r 0 = st.2.1 r 0)
    ∧ (colSolveMSDB trsv sN bN n shifts diag0 cN st j).2.2 0 = st.2.2 0 := by
  have h0 : ¬((0 : ℕ) = j) := fun h => hj h.symm
  constructor
  · intro r
    simp only [colSolveMSDB]
    split <;> split <;> simp only [if_neg h0]
  · simp only [colSolveMSDB]
    split <;> split <;> simp only [if_neg h0]

theorem foldl_colSolve_col0 (trsv : ℕ → (ℕ → ℕ → α) → (ℕ → α) → (ℕ → α))
    (sN bN : α) (n : ℕ) (shifts diag0 cN : ℕ → α) (l : List ℕ)
    (hl : ∀ j ∈ l, j ≠ 0) :
    ∀ st : (ℕ → ℕ → α) × (ℕ → ℕ → α) × (ℕ → α),
      (∀ r, (l.foldl (colSolveMSDB trsv sN bN n shifts diag0 cN) st).2.1 r 0 =
        st.2.1 r 0)
      ∧ (l.foldl (colSolveMSDB trsv sN bN n shifts diag0 cN) st).2.2 0 =
        st.2.2 0 := by
  induction l with
  | nil => exact fun st => ⟨fun r => rfl, rfl⟩
  | cons a l ih =>
    intro st
    have h1 := ih (fun j hj => hl j (List.mem_cons_of_mem a hj))
      (colSolveMSDB trsv sN bN n shifts diag0 cN st a)
    have h2 := colSolveMSDB_col0 trsv sN bN n shifts diag0 cN st a
      (hl a (List.mem_cons_self a l))
    rw [List.foldl_cons]
    exact ⟨fun r => (h1.1 r).trans (h2.1 r), h1.2.trans h2.2⟩

theorem mem_range_drop_one_ne_zero (k : ℕ) : ∀ j ∈ (List.range k).drop 1, j ≠ 0 := by
  intro j hj
  cases k with
  | zero => simp at hj
  | succ k =>
    rw [List.range_succ_eq_map] at hj
    simp only [List.drop_succ_cons, List.drop_zero] at hj
    obtain ⟨t, -, rfl⟩ := List.mem_map.1 hj
    exact Nat.succ_ne_zero t

theorem msdb_col0_frame (trsv : ℕ → (ℕ → ℕ → α) → (ℕ → α) → (ℕ → α))
    (sN bN : α) (n k : ℕ) (U X : ℕ → ℕ → α) (shifts : ℕ → α) :
    (msdbSolve trsv sN bN n k U X shifts).2.2 0 = 1
    ∧ ∀ r, (msdbSolve trsv sN bN n k U X shifts).2.1 r 0 = X r 0 := by
  have hf := foldl_colSolve_col0 trsv sN bN n shifts (diagOf U) (cNormF U)
    ((List.range k).drop 1) (mem_range_drop_one_ne_zero k) (U, X, fun _ => (1 : α))
  exact ⟨hf.2, hf.1⟩

theorem msPre_n1 (sN bN : α) (hbN : 0 < bN) (m : ℕ) (st : MsState α) :
    (msPre sN bN m 1 st).X = st.X ∧ (msPre sN bN m 1 st).scales = st.scales := by
  have hr1 : List.range 1 = [0] := rfl
  have hc : colMaxSeg 0 (min 0 m) 0 st.X = 0 := by
    rw [min_eq_left (Nat.zero_le m)]
    rfl
  simp only [msPre, hr1, List.foldl_cons, List.foldl_nil]
  rw [if_neg (by rw [hc]; exact not_le.2 hbN)]
  exact ⟨rfl, rfl⟩

theorem msBlockStep_n1 (trsv : ℕ → (ℕ → ℕ → α) → (ℕ → α) → (ℕ → α))
    (sN bN : α) (shifts : ℕ → α) (m bsize : ℕ) (st : MsState α) (k : ℕ) :
    (msBlockStep trsv sN bN shifts m 1 bsize st k).X = st.X ∧
      (msBlockStep trsv sN bN shifts m 1 bsize st k).scales = st.scales := by
  rcases Nat.eq_zero_or_pos k with rfl | hk
  · have hr : msdbSolve trsv sN bN (min bsize m) 1 st.U st.X shifts =
        (st.U, st.X, fun _ => (1 : α)) :=
      msdb_trivial trsv sN bN _ _ le_rfl _ _ _
    have hr1 : List.range 1 = [0] := rfl
    simp only [msBlockStep, Nat.sub_zero, Nat.zero_add, zero_add, Nat.add_zero,
      add_zero, hr, hr1, List.foldl_cons, List.foldl_nil, lt_self_iff_false,
      if_false, ite_self]
    exact ⟨trivial, trivial⟩
  · have hact : 1 - k = 0 := by omega
    simp only [msBlockStep, hact, List.range_zero, List.foldl_nil, if_pos hk]
    constructor
    · funext rr c
      rw [if_neg (by omega : ¬(rr < k ∧ k ≤ c ∧ c < 1))]
      rw [if_neg (by omega : ¬(k ≤ rr ∧ rr < k + min bsize (m - k) ∧ k ≤ c ∧ c < 1))]
    · trivial

theorem msSolve_n1 (trsv : ℕ → (ℕ → ℕ → α) → (ℕ → α) → (ℕ → α))
    (sN bN : α) (hbN : 0 < bN) (bsize m : ℕ) (U X : ℕ → ℕ → α)
    (shifts : ℕ → α) :
    (msSolve trsv sN bN bsize m 1 U X shifts).X = X ∧
      (msSolve trsv sN bN bsize m 1 U X shifts).scales = fun _ => (1 : α) := by
  have hfold : ∀ (l : List ℕ) (st : MsState α), st.X = X →
      st.scales = (fun _ => (1 : α)) →
      (l.foldl (msBlockStep trsv sN bN shifts m 1 bsize) st).X = X ∧
      (l.foldl (msBlockStep trsv sN bN shifts m 1 bsize) st).scales =
        fun _ => (1 : α) := by
    intro l
    induction l with
    | nil => exact fun st h1 h2 => ⟨h1, h2⟩
    | cons a l ih =>
      intro st h1 h2
      rw [List.foldl_cons]
      apply ih
      · rw [(msBlockStep_n1 trsv sN bN shifts m bsize st a).1, h1]
      · rw [(msBlockStep_n1 trsv sN bN shifts m bsize st a).2, h2]
  have hpre := msPre_n1 sN bN hbN m ⟨U, X, fun _ => 1, fun _ => 0⟩
  simp only [msSolve]
  exact hfold _ _ (by rw [hpre.1]) (by rw [hpre.2])

/-- C8: (i) calling the serial blocked `MultiShiftSolve` with exactly one
shift leaves the right-hand-side matrix untouched and returns the scale
vector `(1)` — the pre-loop measures an empty column and the per-panel
diagonal-block solves iterate over no columns; (ii) in general,
`MultiShiftDiagonalBlockSolve` always skips column `j = 0` (its scale stays
at the initialized 1 and its right-hand-side column is never written). -/
theorem triangEig_multiShiftSolve_single_shift
    (trsv : ℕ → (ℕ → ℕ → α) → (ℕ → α) → (ℕ → α)) (sN bN : α) (hbN : 0 < bN)
    (bsize m : ℕ) (U X : ℕ → ℕ → α) (shifts : ℕ → α) :
    ((msSolve trsv sN bN bsize m 1 U X shifts).X = X
      ∧ (msSolve trsv sN bN bsize m 1 U X shifts).scales 0 = 1)
    ∧ (∀ (n k : ℕ) (U2 X2 : ℕ → ℕ → α) (sh2 : ℕ → α),
        (msdbSolve trsv sN bN n k U2 X2 sh2).2.2 0 = 1
        ∧ ∀ r, (msdbSolve trsv sN bN n k U2 X2 sh2).2.1 r 0 = X2 r 0) := by
  have h := msSolve_n1 trsv sN bN hbN bsize m U X shifts
  refine ⟨⟨h.1, ?_⟩, fun n k U2 X2 sh2 => msdb_col0_frame trsv sN bN n k U2 X2 sh2⟩
  rw [h.2]

/-- Witness for `triangEig_multiShiftSolve_single_shift` at concrete rational
machine parameters. -/
theorem triangEig_multiShiftSolve_single_shift_witness :
    (0 : ℚ) < 100 ∧
      (msSolve (fun _ _ w => w) (1/100 : ℚ) 100 4 3 1 (fun _ _ => 5)
        (fun _ _ => 7) (fun _ => 2)).X = (fun _ _ => (7 : ℚ)) := by
  have h := triangEig_multiShiftSolve_single_shift (fun _ _ w => w)
    (1/100 : ℚ) 100 (by norm_num) 4 3 (fun _ _ => 5) (fun _ _ => 7) (fun _ => 2)
  exact ⟨by norm_num, h.1.1⟩

end TheoremsTriang

section TheoremsRemap

variable {α : Type} [LinearOrderedField α]

theorem filter_take_getD (p : ℕ → Bool) :
    ∀ (l : List ℕ) (s : ℕ) (d : ℕ), s < l.length → p (l.getD s d) = true →
      ((l.take s).filter p).length < (l.filter p).length ∧
      (l.filter p).getD (((l.take s).filter p).length) d = l.getD s d := by
  intro l
  induction l with
  | nil =>
    intro s d hs hp
    simp at hs
  | cons a t ih =>
    intro s d hs hp
    cases s with
    | zero =>
      simp only [List.getD_cons_zero] at hp ⊢
      rw [List.take_zero]
      rw [List.filter_cons_of_pos hp]
      constructor
      · simp
      · simp
    | succ s =>
      have hs2 : s < t.length := by simpa using hs
      have hp2 : p (t.getD s d) = true := by
        simpa only [List.getD_cons_succ] using hp
      have ihs := ih s d hs2 hp2
      rw [List.take_succ_cons, List.getD_cons_succ]
      by_cases hpa : p a = true
      · rw [List.filter_cons_of_pos hpa, List.filter_cons_of_pos hpa]
        simp only [List.length_cons, List.getD_cons_succ]
        exact ⟨by omega, ihs.2⟩
      · have hpa2 : ¬ p a = true := hpa
        rw [List.filter_cons_of_neg (by simpa using hpa2),
          List.filter_cons_of_neg (by simpa using hpa2)]
        exact ihs

theorem getD_map_of_lt (v : ℕ → α) :
    ∀ (l : List ℕ) (k : ℕ), k < l.length →
      (l.map v).getD k 0 = v (l.getD k 0) := by
  intro l
  induction l with
  | nil => intro k hk; simp at hk
  | cons a t ih =>
    intro k hk
    cases k with
    | zero => simp
    | succ k =>
      simp only [List.map_cons, List.getD_cons_succ]
      exact ih k (by simpa using hk)

theorem pullRank_eq_map (owner : ℕ → ℕ) (v : ℕ → α) (l : List ℕ) :
    pullRank owner v l = l.map v := by
  apply List.ext_getElem
  · simp [pullRank]
  · intro s h1 h2
    have hs : s < l.length := by simpa [pullRank] using h1
    have hsd : l.getD s 0 = l[s] := List.getD_eq_getElem l 0 hs
    have hp : (fun j => decide (owner j = owner (l.getD s 0))) (l.getD s 0) = true := by
      simp
    have hft := filter_take_getD (fun j => decide (owner j = owner (l.getD s 0)))
      l s 0 hs hp
    simp only [pullRank, List.getElem_map, List.getElem_range]
    rw [getD_map_of_lt v _ _ hft.1, hft.2, hsd]

theorem scatterPairs_not_mem (pairs : List (ℕ × α)) :
    ∀ (X0 : ℕ → α) (i : ℕ), i ∉ pairs.map Prod.fst →
      scatterPairs pairs X0 i = X0 i := by
  induction pairs with
  | nil => intro X0 i _; rfl
  | cons pr rest ih =>
    intro X0 i hi
    have hi1 : i ≠ pr.1 := by
      intro h
      exact hi (by simp [h])
    have hi2 : i ∉ rest.map Prod.fst := by
      intro h
      exact hi (by simp [h])
    show scatterPairs rest _ i = X0 i
    rw [ih _ i hi2]
    exact if_neg hi1

theorem scatterPairs_write (v : ℕ → α) :
    ∀ (pairs : List (ℕ × α)), (∀ pr ∈ pairs, pr.2 = v pr.1) →
      ∀ (X0 : ℕ → α) (i : ℕ), i ∈ pairs.map Prod.fst →
        scatterPairs pairs X0 i = v i := by
  intro pairs
  induction pairs with
  | nil =>
    intro _ X0 i hi
    simp at hi
  | cons pr rest ih =>
    intro hall X0 i hi
    show scatterPairs rest _ i = v i
    by_cases hmem : i ∈ rest.map Prod.fst
    · exact ih (fun q hq => hall q (List.mem_cons_of_mem pr hq)) _ i hmem
    · have hi1 : i = pr.1 := by
        rw [List.map_cons, List.mem_cons] at hi
        rcases hi with h | h
        · exact h
        · exact absurd h hmem
      rw [scatterPairs_not_mem rest _ i hmem]
      show (if i = pr.1 then pr.2 else X0 i) = v i
      rw [if_pos hi1, hall pr (List.mem_cons_self pr rest), hi1]

theorem zip_self_map (v : ℕ → α) :
    ∀ l : List ℕ, l.zip (l.map v) = l.map (fun a => (a, v a)) := by
  intro l
  induction l with
  | nil => rfl
  | cons a t ih => simp [ih]

/-- C1: `Push` after `Pull` reproduces the flat vector elementwise.  The
per-process traversal (local nodes, then each distributed node's cyclic
shard) is `rankInds`, translated through the inverse map; validity of the
elimination tree over a compatible sparsity pattern is the hypothesis that
these translated lists jointly cover every row `i < height` and that the
external row-ownership function maps them into the `P` ranks.  `Pull`
delivers, at each traversal position, exactly the flat entry of the
translated index (the bucketed two-phase all-to-all is `pullRank`), and
`Push` scatters those pairs back by owner, so every row receives its
original value, whatever the prior contents `X0` of the output vector. -/
theorem DistNodalMultiVec_pull_push_roundtrip (P height : ℕ)
    (owner invMap : ℕ → ℕ) (ranks : List RankTreeInfo) (v X0 : ℕ → α)
    (hown : ∀ i ∈ globalInds invMap ranks, owner i < P)
    (hcov : ∀ i, i < height → i ∈ globalInds invMap ranks) :
    ∀ i, i < height → pullThenPush P owner invMap ranks v X0 i = v i := by
  intro i hi
  have hmemG := hcov i hi
  obtain ⟨r, hr, hir⟩ := List.mem_flatMap.1 hmemG
  unfold pullThenPush pushGlobal
  apply scatterPairs_write v
  · intro pr hpr
    obtain ⟨q, hq, hpr2⟩ := List.mem_flatMap.1 hpr
    obtain ⟨rv, hrv, hpr3⟩ := List.mem_flatMap.1 hpr2
    have hpr4 := (List.mem_filter.1 hpr3).1
    obtain ⟨r2, hr2, hre⟩ := List.mem_map.1 hrv
    rw [← hre] at hpr4
    simp only at hpr4
    rw [pullRank_eq_map, zip_self_map] at hpr4
    obtain ⟨a, ha, hae⟩ := List.mem_map.1 hpr4
    rw [← hae]
  · rw [List.mem_map]
    refine ⟨(i, v i), ?_, rfl⟩
    rw [List.mem_flatMap]
    refine ⟨owner i, List.mem_range.2 (hown i hmemG), ?_⟩
    rw [List.mem_flatMap]
    refine ⟨(translateInds invMap (rankInds r),
      pullRank owner v (translateInds invMap (rankInds r))), ?_, ?_⟩
    · exact List.mem_map.2 ⟨r, hr, rfl⟩
    · rw [List.mem_filter]
      constructor
      · simp only
        rw [pullRank_eq_map, zip_self_map]
        exact List.mem_map.2 ⟨i, hir, rfl⟩
      · simp

/-- Witness for `DistNodalMultiVec_pull_push_roundtrip`: two processes,
height 4, rank 0 owning one local node of size 2 plus the even shard of a
distributed node of size 2 at offset 2, rank 1 owning the odd shard; the
identity inverse map and the block row distribution `owner i = i / 2`. -/
theorem DistNodalMultiVec_pull_push_roundtrip_witness :
    ((∀ i ∈ globalInds (fun i => i)
        [⟨[(0, 2)], [(2, 2, 2, 0)]⟩, ⟨[], [(2, 2, 2, 1)]⟩], i / 2 < 2)
      ∧ (∀ i, i < 4 → i ∈ globalInds (fun i => i)
        [⟨[(0, 2)], [(2, 2, 2, 0)]⟩, ⟨[], [(2, 2, 2, 1)]⟩]))
    ∧ pullThenPush 2 (fun i => i / 2) (fun i => i)
        [⟨[(0, 2)], [(2, 2, 2, 0)]⟩, ⟨[], [(2, 2, 2, 1)]⟩]
        (fun i => (i : ℚ) + 7) (fun _ => 0) 3 = (3 : ℚ) + 7 := by
  refine ⟨⟨by decide, by decide⟩, ?_⟩
  exact DistNodalMultiVec_pull_push_roundtrip 2 4 (fun i => i / 2) (fun i => i)
    [⟨[(0, 2)], [(2, 2, 2, 0)]⟩, ⟨[], [(2, 2, 2, 1)]⟩]
    (fun i => (i : ℚ) + 7) (fun _ => 0) (by decide) (by decide) 3 (by norm_num)

end TheoremsRemap
